import Mathlib

/-!
Verification of the comic2kindle backend against its specification.

The Python source under `backend/app` is shallowly embedded: pure numeric
code becomes Lean functions on `Nat`, `Int` and `ℚ` (Python `float`
arithmetic is modelled by exact rational arithmetic, and `int(x)` on a
non-negative value by the floor), list-mutating loops become structural
recursions, and the stateful pieces (the job registry, the conversion
pipeline) become explicit state passing or small step relations.
-/

namespace Merger

/-!
Embedding of `backend/app/services/merger.py` (`MergerService`).

Images are abstracted to an arbitrary type `α`; the per-image estimated
output size delivered by `MergerService._estimate_single_image_size`
(via the `_get_image_info` cache) is abstracted to a function
`est : α → Nat`, so the theorems quantify over every possible estimate.
-/

variable {α : Type}

/-- The per-batch EPUB structural overhead charged by the merger
(`epub_overhead = 50_000` in `estimate_output_size`, and the initial
`current_size = 50_000` in `calculate_split_points`). -/
def epub_overhead : Nat := 50000

/-- The loop body of `MergerService.calculate_split_points`: walks the
images left to right carrying the running index `idx`, the running
`curSize` accumulator and the current batch `curBatch`, emitting the
index of every image a split is placed before. -/
def splitAux (est : α → Nat) (maxSize : Nat) :
    List α → Nat → Nat → List α → List Nat
  | [], _, _, _ => []
  | x :: rest, idx, curSize, curBatch =>
    if maxSize < curSize + est x ∧ curBatch.isEmpty = false then
      idx :: splitAux est maxSize rest (idx + 1) (epub_overhead + est x) [x]
    else
      splitAux est maxSize rest (idx + 1) (curSize + est x) (curBatch ++ [x])

/-- `MergerService.calculate_split_points(images, max_size)`. -/
def calculate_split_points (est : α → Nat) (images : List α) (maxSize : Nat) :
    List Nat :=
  if images.isEmpty then [] else splitAux est maxSize images 0 epub_overhead []

/-- The batch-building loop of `MergerService.merge_images`: slices
`allImages` at the split points (`all_images[prev_point:point]`, skipping
empty slices), then appends the remaining images when `prev_point` is
still short of the end. -/
def batchesLoop (allImages : List α) : List Nat → Nat → List (List α)
  | [], prev =>
    if prev < allImages.length then [allImages.drop prev] else []
  | p :: ps, prev =>
    let batch := (allImages.drop prev).take (p - prev)
    if batch.isEmpty then batchesLoop allImages ps p
    else batch :: batchesLoop allImages ps p

/-- `MergerService.merge_images(image_lists, max_size_bytes)` after the
`max_size_bytes or self.max_output_size` default has been resolved to
`maxSize`: flatten the per-file image lists, return `[]` on empty input,
otherwise slice at the computed split points, falling back to a single
batch when no batch was produced. -/
def merge_images (est : α → Nat) (imageLists : List (List α)) (maxSize : Nat) :
    List (List α) :=
  let allImages := imageLists.flatten
  if allImages.isEmpty then []
  else
    let batches := batchesLoop allImages (calculate_split_points est allImages maxSize) 0
    if batches.isEmpty then [allImages] else batches

/-- `MergerService.estimate_output_size(images)`: sum of the cached
per-image estimates plus the fixed EPUB overhead. -/
def estimate_output_size (est : α → Nat) (images : List α) : Nat :=
  (images.map est).sum + epub_overhead

/-- Every split point emitted by `splitAux` is at least the starting
index. -/
theorem splitAux_le (est : α → Nat) (maxSize : Nat) :
    ∀ (l : List α) (idx curSize : Nat) (curBatch : List α),
      ∀ p ∈ splitAux est maxSize l idx curSize curBatch, idx ≤ p := by
  intro l
  induction l with
  | nil => intro idx curSize curBatch p hp; simp [splitAux] at hp
  | cons x rest ih =>
    intro idx curSize curBatch p hp
    rw [splitAux] at hp
    by_cases hc : maxSize < curSize + est x ∧ curBatch.isEmpty = false
    · rw [if_pos hc] at hp
      rcases List.mem_cons.mp hp with h | h
      · omega
      · have := ih (idx + 1) (epub_overhead + est x) [x] p h
        omega
    · rw [if_neg hc] at hp
      have := ih (idx + 1) (curSize + est x) (curBatch ++ [x]) p hp
      omega

/-- When the pass starts with an empty current batch, no split is ever
placed at the starting index itself: the first image is always placed. -/
theorem splitAux_pos_of_empty (est : α → Nat) (maxSize : Nat)
    (l : List α) (idx curSize : Nat) :
    ∀ p ∈ splitAux est maxSize l idx curSize [], idx + 1 ≤ p := by
  intro p hp
  cases l with
  | nil => simp [splitAux] at hp
  | cons x rest =>
    rw [splitAux] at hp
    have hc : ¬ (maxSize < curSize + est x ∧ ([] : List α).isEmpty = false) := by
      simp
    rw [if_neg hc] at hp
    exact splitAux_le est maxSize rest (idx + 1) (curSize + est x) [x] p hp

/-- Every split point emitted by `splitAux` is below the end index. -/
theorem splitAux_lt (est : α → Nat) (maxSize : Nat) :
    ∀ (l : List α) (idx curSize : Nat) (curBatch : List α),
      ∀ p ∈ splitAux est maxSize l idx curSize curBatch, p < idx + l.length := by
  intro l
  induction l with
  | nil => intro idx curSize curBatch p hp; simp [splitAux] at hp
  | cons x rest ih =>
    intro idx curSize curBatch p hp
    rw [splitAux] at hp
    by_cases hc : maxSize < curSize + est x ∧ curBatch.isEmpty = false
    · rw [if_pos hc] at hp
      rcases List.mem_cons.mp hp with h | h
      · simp [h]
      · have := ih (idx + 1) (epub_overhead + est x) [x] p h
        simp only [List.length_cons]
        omega
    · rw [if_neg hc] at hp
      have := ih (idx + 1) (curSize + est x) (curBatch ++ [x]) p hp
      simp only [List.length_cons]
      omega

/-- The split points are strictly increasing. -/
theorem splitAux_pairwise (est : α → Nat) (maxSize : Nat) :
    ∀ (l : List α) (idx curSize : Nat) (curBatch : List α),
      (splitAux est maxSize l idx curSize curBatch).Pairwise (· < ·) := by
  intro l
  induction l with
  | nil => intro idx curSize curBatch; simp [splitAux]
  | cons x rest ih =>
    intro idx curSize curBatch
    rw [splitAux]
    by_cases hc : maxSize < curSize + est x ∧ curBatch.isEmpty = false
    · rw [if_pos hc]
      refine List.pairwise_cons.mpr ⟨?_, ih (idx + 1) (epub_overhead + est x) [x]⟩
      intro p hp
      have := splitAux_le est maxSize rest (idx + 1) (epub_overhead + est x) [x] p hp
      omega
    · rw [if_neg hc]
      exact ih (idx + 1) (curSize + est x) (curBatch ++ [x])

/-- Slicing at strictly increasing in-range split points loses nothing:
the concatenation of the produced batches is the tail of the image list
from `prev` on, and every produced batch is non-empty. -/
theorem batchesLoop_flatten (allImages : List α) :
    ∀ (pts : List Nat) (prev : Nat),
      pts.Pairwise (· < ·) →
      (∀ q ∈ pts, prev < q) →
      (∀ q ∈ pts, q < allImages.length) →
      (batchesLoop allImages pts prev).flatten = allImages.drop prev ∧
      ∀ b ∈ batchesLoop allImages pts prev, b ≠ [] := by
  intro pts
  induction pts with
  | nil =>
    intro prev _ _ _
    by_cases h : prev < allImages.length
    · rw [batchesLoop, if_pos h]
      constructor
      · simp
      · intro b hb
        rcases List.mem_singleton.mp hb with rfl
        intro hnil
        have : allImages.length ≤ prev := by
          simpa [List.drop_eq_nil_iff] using hnil
        omega
    · rw [batchesLoop, if_neg h]
      refine ⟨?_, by simp⟩
      simp only [List.flatten_nil]
      exact (List.drop_eq_nil_of_le (by omega)).symm
  | cons p ps ih =>
    intro prev hpw hlb hub
    have hprevp : prev < p := hlb p (List.mem_cons_self p ps)
    have hplen : p < allImages.length := hub p (List.mem_cons_self p ps)
    have hbne : ((allImages.drop prev).take (p - prev)).isEmpty = false := by
      rw [List.isEmpty_eq_false]
      intro hnil
      have hlen := congrArg List.length hnil
      simp only [List.length_take, List.length_drop, List.length_nil] at hlen
      omega
    have hrec := ih p (List.Pairwise.of_cons hpw)
      (fun q hq => (List.pairwise_cons.mp hpw).1 q hq)
      (fun q hq => hub q (List.mem_cons_of_mem p hq))
    rw [batchesLoop]
    simp only [hbne, Bool.false_eq_true, if_false]
    constructor
    · simp only [List.flatten_cons, hrec.1]
      have hdd : allImages.drop p = (allImages.drop prev).drop (p - prev) := by
        rw [List.drop_drop]
        congr 1
        omega
      rw [hdd]
      exact List.take_append_drop (p - prev) (allImages.drop prev)
    · intro b hb
      rcases List.mem_cons.mp hb with rfl | hb
      · exact List.isEmpty_eq_false.mp hbne
      · exact hrec.2 b hb

/-- C1: for every list of image lists and every positive `max_bytes`,
`MergerService.merge_images` returns batches whose in-order concatenation
equals the flattened input sequence (no page dropped, duplicated, or
reordered), no returned batch is empty, and an empty input yields an
empty batch list. -/
theorem merge_images_partition (est : α → Nat) (imageLists : List (List α))
    (maxBytes : Nat) (hpos : 0 < maxBytes) :
    (merge_images est imageLists maxBytes).flatten = imageLists.flatten ∧
    (∀ b ∈ merge_images est imageLists maxBytes, b ≠ []) ∧
    (imageLists.flatten = [] → merge_images est imageLists maxBytes = []) := by
  unfold merge_images
  by_cases hemp : imageLists.flatten.isEmpty
  · rw [if_pos hemp]
    refine ⟨?_, by simp, fun _ => rfl⟩
    simp only [List.flatten_nil]
    exact (List.isEmpty_iff.mp hemp).symm
  · rw [if_neg hemp]
    have hne : imageLists.flatten ≠ [] := by
      intro h; exact hemp (by simp [h])
    have hpts :
        calculate_split_points est imageLists.flatten maxBytes =
          splitAux est maxBytes imageLists.flatten 0 epub_overhead [] := by
      unfold calculate_split_points
      rw [if_neg (by simpa using hemp)]
    have hpw : (calculate_split_points est imageLists.flatten maxBytes).Pairwise (· < ·) := by
      rw [hpts]; exact splitAux_pairwise est maxBytes _ 0 epub_overhead []
    have hlb : ∀ q ∈ calculate_split_points est imageLists.flatten maxBytes, 0 < q := by
      rw [hpts]
      intro q hq
      have := splitAux_pos_of_empty est maxBytes imageLists.flatten 0 epub_overhead q hq
      omega
    have hub : ∀ q ∈ calculate_split_points est imageLists.flatten maxBytes,
        q < imageLists.flatten.length := by
      rw [hpts]
      intro q hq
      have := splitAux_lt est maxBytes imageLists.flatten 0 epub_overhead [] q hq
      omega
    have hmain := batchesLoop_flatten imageLists.flatten
      (calculate_split_points est imageLists.flatten maxBytes) 0 hpw hlb hub
    by_cases hbe : (batchesLoop imageLists.flatten
        (calculate_split_points est imageLists.flatten maxBytes) 0).isEmpty
    · rw [if_pos hbe]
      exact ⟨by simp, by simpa using hne, fun h => absurd h hne⟩
    · rw [if_neg hbe]
      refine ⟨by simpa using hmain.1, hmain.2, fun h => absurd h hne⟩

/-- Witness for `merge_images_partition` at a concrete input. -/
theorem merge_images_partition_witness :
    (merge_images (fun n => n) [[3, 4], [5]] 1 : List (List Nat)).flatten =
      [3, 4, 5] ∧
    ∀ b ∈ merge_images (fun n => n) [[3, 4], [5]] 1, b ≠ [] := by
  have h := merge_images_partition (fun n : Nat => n) [[3, 4], [5]] 1 (by decide)
  exact ⟨h.1, h.2.1⟩

/-- If the running size already exceeds the budget and the current batch
is non-empty, the very next image (if any) is a split point. -/
theorem splitAux_head_mem (est : α → Nat) (maxSize : Nat)
    (l : List α) (idx curSize : Nat) (curBatch : List α)
    (hne : l ≠ []) (hover : maxSize < curSize) (hcb : curBatch.isEmpty = false) :
    idx ∈ splitAux est maxSize l idx curSize curBatch := by
  cases l with
  | nil => exact absurd rfl hne
  | cons x rest =>
    rw [splitAux, if_pos ⟨by omega, hcb⟩]
    exact List.mem_cons_self _ _

/-- An image whose estimate plus the per-batch overhead exceeds the
budget forces a split immediately before it (unless it opens the whole
pass) and immediately after it (unless it ends the whole pass). -/
theorem splitAux_oversized (est : α → Nat) (maxSize : Nat) :
    ∀ (l : List α) (idx curSize : Nat) (curBatch : List α),
      epub_overhead ≤ curSize →
      ∀ (j : Nat) (hj : j < l.length),
        maxSize < epub_overhead + est (l.get ⟨j, hj⟩) →
        ((curBatch.isEmpty = false ∨ 0 < j) →
          idx + j ∈ splitAux est maxSize l idx curSize curBatch) ∧
        (j + 1 < l.length →
          idx + (j + 1) ∈ splitAux est maxSize l idx curSize curBatch) := by
  intro l
  induction l with
  | nil => intro idx curSize curBatch _ j hj; simp at hj
  | cons x rest ih =>
    intro idx curSize curBatch hcs j hj hbig
    cases j with
    | zero =>
      simp only [List.get] at hbig
      constructor
      · rintro (hcb | hpos)
        · rw [splitAux, if_pos ⟨by omega, hcb⟩]
          simpa using List.mem_cons_self idx _
        · omega
      · intro hlt
        have hrestne : rest ≠ [] := by
          simp only [List.length_cons] at hlt
          intro h; rw [h] at hlt; simp at hlt
        rw [splitAux]
        by_cases hc : maxSize < curSize + est x ∧ curBatch.isEmpty = false
        · rw [if_pos hc]
          refine List.mem_cons_of_mem _ ?_
          have := splitAux_head_mem est maxSize rest (idx + 1)
            (epub_overhead + est x) [x] hrestne (by omega) (by simp)
          simpa using this
        · rw [if_neg hc]
          have := splitAux_head_mem est maxSize rest (idx + 1)
            (curSize + est x) (curBatch ++ [x]) hrestne (by omega) (by simp)
          simpa using this
    | succ j' =>
      simp only [List.length_cons, Nat.succ_lt_succ_iff] at hj
      have hbig' : maxSize < epub_overhead + est (rest.get ⟨j', hj⟩) := by
        simpa using hbig
      rw [splitAux]
      by_cases hc : maxSize < curSize + est x ∧ curBatch.isEmpty = false
      · rw [if_pos hc]
        have hrec := ih (idx + 1) (epub_overhead + est x) [x]
          (by omega) j' hj hbig'
        constructor
        · intro _
          refine List.mem_cons_of_mem _ ?_
          have := hrec.1 (Or.inl (by simp))
          have harith : idx + 1 + j' = idx + (j' + 1) := by omega
          rwa [harith] at this
        · intro hlt
          refine List.mem_cons_of_mem _ ?_
          have := hrec.2 (by simpa [Nat.succ_lt_succ_iff] using hlt)
          have harith : idx + 1 + (j' + 1) = idx + (j' + 1 + 1) := by omega
          rwa [harith] at this
      · rw [if_neg hc]
        have hrec := ih (idx + 1) (curSize + est x) (curBatch ++ [x])
          (by omega) j' hj hbig'
        constructor
        · intro _
          have := hrec.1 (Or.inl (by simp))
          have harith : idx + 1 + j' = idx + (j' + 1) := by omega
          rwa [harith] at this
        · intro hlt
          have := hrec.2 (by simpa [Nat.succ_lt_succ_iff] using hlt)
          have harith : idx + 1 + (j' + 1) = idx + (j' + 1 + 1) := by omega
          rwa [harith] at this

/-- When both `i` and `i + 1` are batch boundaries (either split points
or the extreme ends of the list), image `i` comes out as a singleton
batch. -/
theorem batchesLoop_singleton (allImages : List α) (i : Nat)
    (hi : i < allImages.length) :
    ∀ (pts : List Nat) (prev : Nat),
      pts.Pairwise (· < ·) →
      (∀ q ∈ pts, prev < q ∧ q < allImages.length) →
      prev ≤ i → (i = prev ∨ i ∈ pts) →
      (i + 1 ∈ pts ∨ (i + 1 = allImages.length ∧ ∀ q ∈ pts, q ≤ i)) →
      [allImages.get ⟨i, hi⟩] ∈ batchesLoop allImages pts prev := by
  intro pts
  induction pts with
  | nil =>
    intro prev _ _ hle hstart hstop
    have hiprev : i = prev := by
      rcases hstart with h | h
      · exact h
      · simp at h
    rcases hstop with h | h
    · simp at h
    · subst hiprev
      rw [batchesLoop, if_pos hi]
      have hdrop : allImages.drop i = allImages.get ⟨i, hi⟩ :: allImages.drop (i + 1) := by
        simpa using List.drop_eq_getElem_cons hi
      have hnil : allImages.drop (i + 1) = [] :=
        List.drop_eq_nil_of_le (by omega)
      rw [hdrop, hnil]
      exact List.mem_singleton.mpr rfl
  | cons p ps ih =>
    intro prev hpw hbnd hle hstart hstop
    have hprevp : prev < p := (hbnd p (List.mem_cons_self p ps)).1
    have hplen : p < allImages.length := (hbnd p (List.mem_cons_self p ps)).2
    by_cases hiprev : i = prev
    · subst hiprev
      -- the next boundary must be exactly i + 1
      have hpnext : p = i + 1 := by
        rcases hstop with hmem | ⟨hlen, hall⟩
        · rcases List.mem_cons.mp hmem with h | h
          · omega
          · have := (List.pairwise_cons.mp hpw).1 _ h
            omega
        · have := hall p (List.mem_cons_self p ps)
          omega
      rw [batchesLoop]
      have hbatch : (allImages.drop i).take (p - i) = [allImages.get ⟨i, hi⟩] := by
        have hdrop : allImages.drop i = allImages.get ⟨i, hi⟩ :: allImages.drop (i + 1) := by
          simpa using List.drop_eq_getElem_cons hi
        rw [hpnext, hdrop, Nat.add_sub_cancel_left]
        exact rfl
      rw [hbatch]
      simp only [List.isEmpty_cons, Bool.false_eq_true, if_false]
      exact List.mem_cons_self _ _
    · have himem : i ∈ p :: ps := by
        rcases hstart with h | h
        · exact absurd h hiprev
        · exact h
      have hpi : p ≤ i := by
        rcases List.mem_cons.mp himem with h | h
        · omega
        · have := (List.pairwise_cons.mp hpw).1 _ h
          omega
      have hrec := ih p (List.Pairwise.of_cons hpw)
        (fun q hq => ⟨(List.pairwise_cons.mp hpw).1 q hq,
          (hbnd q (List.mem_cons_of_mem p hq)).2⟩)
        hpi
        (by
          rcases List.mem_cons.mp himem with h | h
          · exact Or.inl h
          · exact Or.inr h)
        (by
          rcases hstop with hmem | ⟨hlen, hall⟩
          · rcases List.mem_cons.mp hmem with h | h
            · omega
            · exact Or.inl h
          · exact Or.inr ⟨hlen, fun q hq => hall q (List.mem_cons_of_mem p hq)⟩)
      rw [batchesLoop]
      by_cases hbe : ((allImages.drop prev).take (p - prev)).isEmpty
      · rw [if_pos hbe]; exact hrec
      · rw [if_neg hbe]; exact List.mem_cons_of_mem _ hrec

/-- A page whose estimate plus the per-batch overhead exceeds the budget
always comes out of `merge_images` as a singleton batch. -/
theorem merge_images_oversized_singleton (est : α → Nat)
    (imageLists : List (List α)) (maxBytes i : Nat)
    (hi : i < imageLists.flatten.length)
    (hbig : maxBytes < epub_overhead + est (imageLists.flatten.get ⟨i, hi⟩)) :
    [imageLists.flatten.get ⟨i, hi⟩] ∈ merge_images est imageLists maxBytes := by
  have hemp : imageLists.flatten.isEmpty = false := by
    rw [List.isEmpty_eq_false]
    intro h
    rw [h] at hi
    simp at hi
  have hpts :
      calculate_split_points est imageLists.flatten maxBytes =
        splitAux est maxBytes imageLists.flatten 0 epub_overhead [] := by
    unfold calculate_split_points
    rw [if_neg (by simp [hemp])]
  have hov := splitAux_oversized est maxBytes imageLists.flatten 0 epub_overhead []
    (Nat.le_refl _) i hi hbig
  have hstart : i = 0 ∨ i ∈ calculate_split_points est imageLists.flatten maxBytes := by
    by_cases h0 : i = 0
    · exact Or.inl h0
    · refine Or.inr ?_
      rw [hpts]
      have := hov.1 (Or.inr (by omega))
      simpa using this
  have hstop : i + 1 ∈ calculate_split_points est imageLists.flatten maxBytes ∨
      (i + 1 = imageLists.flatten.length ∧
        ∀ q ∈ calculate_split_points est imageLists.flatten maxBytes, q ≤ i) := by
    by_cases hlast : i + 1 < imageLists.flatten.length
    · refine Or.inl ?_
      rw [hpts]
      have := hov.2 hlast
      simpa using this
    · refine Or.inr ⟨by omega, ?_⟩
      intro q hq
      rw [hpts] at hq
      have := splitAux_lt est maxBytes imageLists.flatten 0 epub_overhead [] q hq
      omega
  have hmem := batchesLoop_singleton imageLists.flatten i hi
    (calculate_split_points est imageLists.flatten maxBytes) 0
    (by rw [hpts]; exact splitAux_pairwise est maxBytes _ 0 epub_overhead [])
    (by
      intro q hq
      rw [hpts] at hq
      have h1 := splitAux_pos_of_empty est maxBytes imageLists.flatten 0 epub_overhead q hq
      have h2 := splitAux_lt est maxBytes imageLists.flatten 0 epub_overhead [] q hq
      omega)
    (Nat.zero_le i) hstart hstop
  unfold merge_images
  rw [if_neg (by simp [hemp])]
  have hbne : (batchesLoop imageLists.flatten
      (calculate_split_points est imageLists.flatten maxBytes) 0).isEmpty = false := by
    rw [List.isEmpty_eq_false]
    intro h
    rw [h] at hmem
    simp at hmem
  rw [if_neg (by simp [hbne])]
  exact hmem

/-- The estimate function of the three-page scenario from the spec:
pages with estimated sizes `[60000, 500, 500]`. -/
def scenarioEst : Nat → Nat := fun i => if i = 0 then 60000 else 500

/-- C2: a page whose individual estimated size plus the 50,000-byte
overhead exceeds `max_bytes` is still placed as the sole member of its
own batch (never dropped, the pass always advances); in particular, for
three pages with estimates `[60000, 500, 500]` and
`max_bytes = 100000`, `merge_images` returns exactly the two batches
`[page1]` and `[page2, page3]`, so `split_count = 2`. -/
theorem merge_images_oversized_page {α : Type} :
    (∀ (est : α → Nat) (imageLists : List (List α)) (maxBytes i : Nat)
      (hi : i < imageLists.flatten.length),
      maxBytes < epub_overhead + est (imageLists.flatten.get ⟨i, hi⟩) →
      [imageLists.flatten.get ⟨i, hi⟩] ∈ merge_images est imageLists maxBytes) ∧
    merge_images scenarioEst [[0, 1, 2]] 100000 = [[0], [1, 2]] ∧
    (merge_images scenarioEst [[0, 1, 2]] 100000).length = 2 := by
  refine ⟨?_, by decide, by decide⟩
  intro est imageLists maxBytes i hi hbig
  exact merge_images_oversized_singleton est imageLists maxBytes i hi hbig

/-- Witness for `merge_images_oversized_page`: the oversized first page
of the concrete scenario is a singleton batch. -/
theorem merge_images_oversized_page_witness :
    [(0 : Nat)] ∈ merge_images scenarioEst [[0, 1, 2]] 100000 := by
  have h := (merge_images_oversized_page (α := Nat)).1 scenarioEst [[0, 1, 2]]
    100000 0 (by decide) (by decide)
  simpa using h

/-- The `adjusted_file_size` computed by `MergerService._get_image_info`:
the on-disk size, scaled down when the configured maximums force a
downscale.  Python float arithmetic is modelled by exact rationals and
`int(x)` on the non-negative intermediate values by the floor. -/
def adjusted_file_size (maxW maxH width height fileSize : Nat) : ℤ :=
  if maxW < width ∨ maxH < height then
    let ratio : ℚ := min ((maxW : ℚ) / (width : ℚ)) ((maxH : ℚ) / (height : ℚ))
    let newPixels : ℤ := ⌊(width : ℚ) * ratio⌋ * ⌊(height : ℚ) * ratio⌋
    let originalPixels : Nat := width * height
    ⌊(fileSize : ℚ) * ((newPixels : ℚ) / (originalPixels : ℚ))⌋
  else (fileSize : ℤ)

/-- The `estimated_output_size` field computed by
`MergerService._get_image_info`: compression factor 0.7 plus the 500-byte
HTML overhead, applied to the adjusted file size. -/
def get_image_info_estimate (maxW maxH width height fileSize : Nat) : ℤ :=
  ⌊(adjusted_file_size maxW maxH width height fileSize : ℚ) * (7 / 10 : ℚ)⌋ + 500

/-- The greedy pass of `calculate_split_points` re-expressed exactly as
the spec words it: the accumulated size of the current batch is the
fixed per-batch overhead, charged once at the start of accumulation,
plus the sum of the estimates of the pages placed in the batch so far. -/
def splitAuxSpec (est : α → Nat) (maxSize : Nat) :
    List α → Nat → List α → List Nat
  | [], _, _ => []
  | x :: rest, idx, curBatch =>
    if maxSize < (epub_overhead + (curBatch.map est).sum) + est x ∧
        curBatch.isEmpty = false then
      idx :: splitAuxSpec est maxSize rest (idx + 1) [x]
    else
      splitAuxSpec est maxSize rest (idx + 1) (curBatch ++ [x])

/-- The accumulator of `splitAux` always equals the overhead plus the
sum of the current batch's estimates, so the two passes agree. -/
theorem splitAux_eq_spec (est : α → Nat) (maxSize : Nat) :
    ∀ (l : List α) (idx : Nat) (curBatch : List α),
      splitAux est maxSize l idx (epub_overhead + (curBatch.map est).sum) curBatch =
        splitAuxSpec est maxSize l idx curBatch := by
  intro l
  induction l with
  | nil => intro idx curBatch; rfl
  | cons x rest ih =>
    intro idx curBatch
    rw [splitAux, splitAuxSpec]
    by_cases hc : maxSize < epub_overhead + (curBatch.map est).sum + est x ∧
        curBatch.isEmpty = false
    · rw [if_pos hc, if_pos hc]
      have := ih (idx + 1) [x]
      simpa using this
    · rw [if_neg hc, if_neg hc]
      have := ih (idx + 1) (curBatch ++ [x])
      have harith : epub_overhead + ((curBatch ++ [x]).map est).sum =
          epub_overhead + (curBatch.map est).sum + est x := by
        simp [Nat.add_assoc]
      rwa [harith] at this

/-- C5: the per-page estimate is `floor(adjusted_source_bytes * 0.7) +
500`, with `adjusted_source_bytes` the byte size scaled by
`resized_pixel_count / original_pixel_count` exactly when `width >
max_image_width` or `height > max_image_height`, else the unmodified
byte size; the 50,000-byte overhead is charged once in
`estimate_output_size` and exactly once per batch at the start of
accumulation in `calculate_split_points`. -/
theorem page_estimate_formula {α : Type} :
    (∀ maxW maxH width height fileSize : Nat,
      ¬(maxW < width ∨ maxH < height) →
      get_image_info_estimate maxW maxH width height fileSize =
        ⌊(fileSize : ℚ) * (7 / 10 : ℚ)⌋ + 500) ∧
    (∀ maxW maxH width height fileSize : Nat,
      (maxW < width ∨ maxH < height) →
      get_image_info_estimate maxW maxH width height fileSize =
        ⌊(⌊(fileSize : ℚ) *
            ((((⌊(width : ℚ) * min ((maxW : ℚ) / (width : ℚ)) ((maxH : ℚ) / (height : ℚ))⌋ *
                ⌊(height : ℚ) * min ((maxW : ℚ) / (width : ℚ)) ((maxH : ℚ) / (height : ℚ))⌋ : ℤ) : ℚ)) /
              ((width * height : Nat) : ℚ))⌋ : ℚ) * (7 / 10 : ℚ)⌋ + 500) ∧
    (∀ (est : α → Nat) (images : List α),
      estimate_output_size est images = (images.map est).sum + 50000) ∧
    (∀ (est : α → Nat) (images : List α) (maxSize : Nat),
      calculate_split_points est images maxSize =
        if images.isEmpty then [] else splitAuxSpec est maxSize images 0 []) := by
  refine ⟨?_, ?_, ?_, ?_⟩
  · intro maxW maxH width height fileSize h
    rw [get_image_info_estimate, adjusted_file_size, if_neg h]
    norm_cast
  · intro maxW maxH width height fileSize h
    rw [get_image_info_estimate, adjusted_file_size, if_pos h]
  · intro est images
    rfl
  · intro est images maxSize
    unfold calculate_split_points
    by_cases h : images.isEmpty
    · rw [if_pos h, if_pos h]
    · rw [if_neg h, if_neg h]
      have := splitAux_eq_spec est maxSize images 0 []
      simpa [epub_overhead] using this

/-- Witness for `page_estimate_formula` at concrete inputs: a
1200×1600 page under maximums 1200×1600 is not downscaled, a 2400×3200
page is. -/
theorem page_estimate_formula_witness :
    get_image_info_estimate 1200 1600 1200 1600 1000 =
      ⌊(1000 : ℚ) * (7 / 10 : ℚ)⌋ + 500 ∧
    get_image_info_estimate 1200 1600 2400 3200 1000 =
      ⌊(⌊(1000 : ℚ) *
          ((((⌊(2400 : ℚ) * min ((1200 : ℚ) / (2400 : ℚ)) ((1600 : ℚ) / (3200 : ℚ))⌋ *
              ⌊(3200 : ℚ) * min ((1200 : ℚ) / (2400 : ℚ)) ((1600 : ℚ) / (3200 : ℚ))⌋ : ℤ) : ℚ)) /
            ((2400 * 3200 : Nat) : ℚ))⌋ : ℚ) * (7 / 10 : ℚ)⌋ + 500 ∧
    estimate_output_size (fun n => n) [1, 2, 3] = ([1, 2, 3].sum : Nat) + 50000 ∧
    calculate_split_points (fun n : Nat => n) [1, 2] 7 =
      splitAuxSpec (fun n : Nat => n) [1, 2].length [1, 2] 0 [] := by
  refine ⟨(page_estimate_formula (α := Nat)).1 1200 1600 1200 1600 1000 (by omega),
    (page_estimate_formula (α := Nat)).2.1 1200 1600 2400 3200 1000 (by omega),
    (page_estimate_formula (α := Nat)).2.2.1 (fun n => n) [1, 2, 3], ?_⟩
  have h := (page_estimate_formula (α := Nat)).2.2.2 (fun n : Nat => n) [1, 2] 7
  simpa using h

end Merger

namespace ImageProcessor

/-!
Embedding of `backend/app/services/image_processor.py`
(`ImageProcessorService`).

An image is modelled by its pixel dimensions, its PIL mode string and a
provenance term recording which processing steps built it; pixel
contents themselves are opaque.  Python float arithmetic (the aspect
ratio test against the literal `1.3`, the scale factors) is modelled by
exact rationals, and `int(x)` on non-negative values by the floor.  The
external collaborators (the optional Real-ESRGAN upscaler of
`_upscale_ai`, PIL's `thumbnail` in `_resize_to_fit`, the JPEG encoder)
are parameters of an environment record `Env`, fixed for a run.
-/

inductive UpscaleMethod
  | none
  | lanczos
  | ai_esrgan
deriving DecidableEq

/-- The processing options consumed by `ImageProcessorService`
(device-profile resolution to target dimensions is done once in the
constructor; the target dimensions appear as `tw`/`th` parameters). -/
structure ImageProcessingOptions where
  upscale_method : UpscaleMethod
  detect_spreads : Bool
  rotate_spreads : Bool
  fill_screen : Bool

/-- Provenance of an image value: which processing steps produced it. -/
inductive ImgData
  | source (id : Nat)
  | rotated (d : ImgData)
  | convertedRGB (d : ImgData)
  | lanczosUpscaled (d : ImgData)
  | aiUpscaled (d : ImgData)
  | fillResized (d : ImgData)
  | fitResized (d : ImgData)
deriving DecidableEq

/-- A PIL image: dimensions, mode string, provenance. -/
structure Img where
  width : Nat
  height : Nat
  mode : String
  data : ImgData
deriving DecidableEq

/-- The run environment: availability and behaviour of the external AI
upscaler and the dimensions chosen by PIL `thumbnail`. -/
structure Env where
  ai_available : Bool
  ai_width : Img → Nat
  ai_height : Img → Nat
  ai_mode : Img → String
  thumb_width : Nat → Nat → Img → Nat
  thumb_height : Nat → Nat → Img → Nat

/-- `ImageProcessorService.is_double_page_spread`: aspect ratio strictly
above the threshold 1.3 (`SPREAD_ASPECT_RATIO_THRESHOLD`). -/
def is_double_page_spread (img : Img) : Bool :=
  decide ((img.width : ℚ) / (img.height : ℚ) > 13 / 10)

/-- `ImageProcessorService._rotate_spread`: `rotate(-90, expand=True)`,
90 degrees clockwise, swapping the dimensions. -/
def rotate_spread (img : Img) : Img :=
  { width := img.height, height := img.width, mode := img.mode,
    data := .rotated img.data }

/-- Step 2 of `process_pil_image`: convert to RGB unless already RGB. -/
def convert_rgb_step (img : Img) : Img :=
  if img.mode = "RGBA" ∨ img.mode = "P" ∨ img.mode = "LA" then
    { img with mode := "RGB", data := .convertedRGB img.data }
  else if img.mode ≠ "RGB" then
    { img with mode := "RGB", data := .convertedRGB img.data }
  else img

/-- `ImageProcessorService._upscale_lanczos`: scale by
`max(target_w/w, target_h/h)`, no-op when the scale is at most 1, new
dimensions truncated by Python `int()`. -/
def upscale_lanczos (tw th : Nat) (img : Img) : Img :=
  let scale : ℚ := max ((tw : ℚ) / (img.width : ℚ)) ((th : ℚ) / (img.height : ℚ))
  if scale ≤ 1 then img
  else
    { width := (⌊(img.width : ℚ) * scale⌋).toNat,
      height := (⌊(img.height : ℚ) * scale⌋).toNat,
      mode := img.mode, data := .lanczosUpscaled img.data }

/-- `ImageProcessorService._upscale_ai`: use the external upscaler when
available, otherwise fall back to Lanczos (failures of the AI path,
caught by the surrounding `try`, are modelled as unavailability). -/
def upscale_ai (env : Env) (tw th : Nat) (img : Img) : Img :=
  if env.ai_available then
    { width := env.ai_width img, height := env.ai_height img,
      mode := env.ai_mode img, data := .aiUpscaled img.data }
  else upscale_lanczos tw th img

/-- `ImageProcessorService._upscale_if_needed`. -/
def upscale_if_needed (env : Env) (opts : ImageProcessingOptions)
    (tw th : Nat) (img : Img) : Img :=
  if opts.upscale_method = .none then img
  else if ¬(img.width < tw ∨ img.height < th) then img
  else if opts.upscale_method = .ai_esrgan then upscale_ai env tw th img
  else upscale_lanczos tw th img

/-- `ImageProcessorService._resize_to_fill`: scale by
`min(target_w/w, target_h/h)`, no-op when dimensions are unchanged. -/
def resize_to_fill (tw th : Nat) (img : Img) : Img :=
  let scale : ℚ := min ((tw : ℚ) / (img.width : ℚ)) ((th : ℚ) / (img.height : ℚ))
  let nw := (⌊(img.width : ℚ) * scale⌋).toNat
  let nh := (⌊(img.height : ℚ) * scale⌋).toNat
  if nw = img.width ∧ nh = img.height then img
  else { width := nw, height := nh, mode := img.mode, data := .fillResized img.data }

/-- `ImageProcessorService._resize_to_fit`: downscale only, via PIL
`thumbnail` (external; its chosen dimensions come from the
environment). -/
def resize_to_fit (env : Env) (tw th : Nat) (img : Img) : Img :=
  if img.width ≤ tw ∧ img.height ≤ th then img
  else
    { width := env.thumb_width tw th img, height := env.thumb_height tw th img,
      mode := img.mode, data := .fitResized img.data }

/-- The JPEG encoding produced at the end of `process_pil_image`:
deterministic in the final image and the quality setting. -/
structure EncodedJPEG where
  img : Img
  quality : Nat
deriving DecidableEq

/-- `ImageProcessorService.process_pil_image`: spread rotation, RGB
conversion, upscaling, device-fit resize, JPEG encoding. -/
def process_pil_image (env : Env) (opts : ImageProcessingOptions)
    (tw th : Nat) (img : Img) (quality : Nat) : EncodedJPEG :=
  let img1 :=
    if opts.detect_spreads && is_double_page_spread img then
      (if opts.rotate_spreads then rotate_spread img else img)
    else img
  let img2 := convert_rgb_step img1
  let img3 := upscale_if_needed env opts tw th img2
  let img4 := if opts.fill_screen then resize_to_fill tw th img3
    else resize_to_fit env tw th img3
  { img := img4, quality := quality }

/-- Whether the spread rotation occurs anywhere in an image's
provenance. -/
def rotationApplied : ImgData → Bool
  | .source _ => false
  | .rotated _ => true
  | .convertedRGB d => rotationApplied d
  | .lanczosUpscaled d => rotationApplied d
  | .aiUpscaled d => rotationApplied d
  | .fillResized d => rotationApplied d
  | .fitResized d => rotationApplied d

theorem rotationApplied_convert (img : Img) :
    rotationApplied (convert_rgb_step img).data = rotationApplied img.data := by
  unfold convert_rgb_step
  by_cases h1 : img.mode = "RGBA" ∨ img.mode = "P" ∨ img.mode = "LA"
  · rw [if_pos h1]; simp [rotationApplied]
  · rw [if_neg h1]
    by_cases h2 : img.mode ≠ "RGB"
    · rw [if_pos h2]; simp [rotationApplied]
    · rw [if_neg h2]

theorem rotationApplied_lanczos (tw th : Nat) (img : Img) :
    rotationApplied (upscale_lanczos tw th img).data = rotationApplied img.data := by
  unfold upscale_lanczos
  by_cases h : max ((tw : ℚ) / (img.width : ℚ)) ((th : ℚ) / (img.height : ℚ)) ≤ 1
  · simp only [h, if_true]
  · simp only [h, if_false, rotationApplied]

theorem rotationApplied_upscale (env : Env) (opts : ImageProcessingOptions)
    (tw th : Nat) (img : Img) :
    rotationApplied (upscale_if_needed env opts tw th img).data =
      rotationApplied img.data := by
  unfold upscale_if_needed upscale_ai
  by_cases h1 : opts.upscale_method = UpscaleMethod.none
  · rw [if_pos h1]
  · rw [if_neg h1]
    by_cases h2 : ¬(img.width < tw ∨ img.height < th)
    · rw [if_pos h2]
    · rw [if_neg h2]
      by_cases h3 : opts.upscale_method = UpscaleMethod.ai_esrgan
      · rw [if_pos h3]
        by_cases h4 : env.ai_available
        · rw [if_pos h4]; simp [rotationApplied]
        · rw [if_neg h4]; exact rotationApplied_lanczos tw th img
      · rw [if_neg h3]; exact rotationApplied_lanczos tw th img

theorem rotationApplied_fill (tw th : Nat) (img : Img) :
    rotationApplied (resize_to_fill tw th img).data = rotationApplied img.data := by
  unfold resize_to_fill
  by_cases h : (⌊(img.width : ℚ) *
        min ((tw : ℚ) / (img.width : ℚ)) ((th : ℚ) / (img.height : ℚ))⌋).toNat = img.width ∧
      (⌊(img.height : ℚ) *
        min ((tw : ℚ) / (img.width : ℚ)) ((th : ℚ) / (img.height : ℚ))⌋).toNat = img.height
  · simp only [h, and_self, if_true]
  · simp only [h, if_false, rotationApplied]

theorem rotationApplied_fit (env : Env) (tw th : Nat) (img : Img) :
    rotationApplied (resize_to_fit env tw th img).data = rotationApplied img.data := by
  unfold resize_to_fit
  by_cases h : img.width ≤ tw ∧ img.height ≤ th
  · rw [if_pos h]
  · rw [if_neg h]; simp [rotationApplied]

/-- C6: `process_pil_image` applies the spread rotation if and only if
`detect_spreads` is true, `rotate_spreads` is true, and the image's
width/height ratio is strictly greater than 1.3; an image at or below
the threshold is never rotated, and no rotation occurs when either flag
is false. -/
theorem process_rotation_iff (env : Env) (opts : ImageProcessingOptions)
    (tw th : Nat) (img : Img) (quality : Nat)
    (hsrc : rotationApplied img.data = false) :
    rotationApplied (process_pil_image env opts tw th img quality).img.data =
      (opts.detect_spreads && opts.rotate_spreads &&
        decide ((img.width : ℚ) / (img.height : ℚ) > 13 / 10)) := by
  unfold process_pil_image
  simp only [rotationApplied_fill, rotationApplied_fit, rotationApplied_upscale,
    rotationApplied_convert, apply_ite (fun i : Img => rotationApplied i.data),
    apply_ite (fun i : Img => if opts.fill_screen then resize_to_fill tw th i
      else resize_to_fit env tw th i)]
  by_cases hf : opts.fill_screen
  · simp only [hf, if_true, rotationApplied_fill, rotationApplied_upscale,
      rotationApplied_convert, apply_ite (fun i : Img => rotationApplied i.data)]
    cases hd : opts.detect_spreads <;> cases hr : opts.rotate_spreads <;>
      cases hs : is_double_page_spread img <;>
      simp_all [rotate_spread, rotationApplied, is_double_page_spread]
  · simp only [hf, if_false, rotationApplied_fit, rotationApplied_upscale,
      rotationApplied_convert, apply_ite (fun i : Img => rotationApplied i.data)]
    cases hd : opts.detect_spreads <;> cases hr : opts.rotate_spreads <;>
      cases hs : is_double_page_spread img <;>
      simp_all [rotate_spread, rotationApplied, is_double_page_spread]

/-- Witness for `process_rotation_iff`: a 2000×1000 source page with
both flags on is rotated. -/
theorem process_rotation_iff_witness :
    rotationApplied (process_pil_image
      ⟨false, fun _ => 0, fun _ => 0, fun _ => "RGB", fun _ _ _ => 0, fun _ _ _ => 0⟩
      ⟨UpscaleMethod.none, true, true, true⟩
      1236 1648 ⟨2000, 1000, "RGB", .source 0⟩ 85).img.data = true := by
  have h := process_rotation_iff
    ⟨false, fun _ => 0, fun _ => 0, fun _ => "RGB", fun _ _ _ => 0, fun _ _ _ => 0⟩
    ⟨UpscaleMethod.none, true, true, true⟩
    1236 1648 ⟨2000, 1000, "RGB", .source 0⟩ 85 rfl
  rw [h]
  norm_num

/-- C7 counterexample: upscaling a 2×3 image to 5×5 targets uses scale
5/2, so the new height is `int(3 * 2.5) = 7` — truncated, not the
"nearest-up" 8 that the claim's rounding (whether read as ceiling or as
round-half-up of 7.5) would give. -/
theorem upscale_lanczos_rounding_counterexample :
    (upscale_lanczos 5 5 ⟨2, 3, "RGB", .source 0⟩).height = 7 ∧
    (⌈(3 : ℚ) * max ((5 : ℚ) / (2 : ℚ)) ((5 : ℚ) / (3 : ℚ))⌉ : ℤ) = 8 ∧
    (⌊(3 : ℚ) * max ((5 : ℚ) / (2 : ℚ)) ((5 : ℚ) / (3 : ℚ)) + 1 / 2⌋ : ℤ) = 8 ∧
    (7 : Nat) ≠ 8 := by
  have hmax : max ((5 : ℚ) / (2 : ℚ)) ((5 : ℚ) / (3 : ℚ)) = 5 / 2 := by
    rw [max_eq_left]
    norm_num
  refine ⟨?_, ?_, ?_, by norm_num⟩
  · unfold upscale_lanczos
    rw [if_neg (by push_cast; rw [hmax]; norm_num)]
    show Int.toNat _ = 7
    push_cast
    rw [hmax, show ((3 : ℚ) * (5 / 2)) = 15 / 2 by norm_num]
    norm_num
    rfl
  · rw [hmax, show ((3 : ℚ) * (5 / 2)) = 15 / 2 by norm_num, Int.ceil_eq_iff]
    constructor <;> norm_num
  · rw [hmax, show ((3 : ℚ) * (5 / 2) + 1 / 2) = ((8 : ℤ) : ℚ) by norm_num,
      Int.floor_intCast]

/-- C7 (amended): when the upscale method is `lanczos` and the image is
smaller than the target in either axis, the image is scaled by
`max(target_w/w, target_h/h)` with the new dimensions truncated to
whole pixels (floor, not nearest-up), a scale of at most 1 leaves the
image unchanged, and the Lanczos path never downscales. -/
theorem upscale_lanczos_spec :
    (∀ (tw th : Nat) (img : Img),
      max ((tw : ℚ) / (img.width : ℚ)) ((th : ℚ) / (img.height : ℚ)) ≤ 1 →
      upscale_lanczos tw th img = img) ∧
    (∀ (tw th : Nat) (img : Img),
      1 < max ((tw : ℚ) / (img.width : ℚ)) ((th : ℚ) / (img.height : ℚ)) →
      (upscale_lanczos tw th img).width =
        (⌊(img.width : ℚ) *
          max ((tw : ℚ) / (img.width : ℚ)) ((th : ℚ) / (img.height : ℚ))⌋).toNat ∧
      (upscale_lanczos tw th img).height =
        (⌊(img.height : ℚ) *
          max ((tw : ℚ) / (img.width : ℚ)) ((th : ℚ) / (img.height : ℚ))⌋).toNat) ∧
    (∀ (tw th : Nat) (img : Img),
      img.width ≤ (upscale_lanczos tw th img).width ∧
      img.height ≤ (upscale_lanczos tw th img).height) ∧
    (∀ (env : Env) (opts : ImageProcessingOptions) (tw th : Nat) (img : Img),
      opts.upscale_method = UpscaleMethod.lanczos →
      upscale_if_needed env opts tw th img =
        if img.width < tw ∨ img.height < th then upscale_lanczos tw th img
        else img) := by
  have hle : ∀ (n : Nat) (s : ℚ), 1 < s → (n : Nat) ≤ (⌊(n : ℚ) * s⌋).toNat := by
    intro n s hs
    have h1 : (n : ℚ) ≤ (n : ℚ) * s :=
      le_mul_of_one_le_right (by positivity) (le_of_lt hs)
    have h2 : (n : ℤ) ≤ ⌊(n : ℚ) * s⌋ := Int.le_floor.mpr (by push_cast; exact h1)
    omega
  refine ⟨?_, ?_, ?_, ?_⟩
  · intro tw th img h
    unfold upscale_lanczos
    rw [if_pos h]
  · intro tw th img h
    unfold upscale_lanczos
    rw [if_neg (not_le.mpr h)]
    exact ⟨rfl, rfl⟩
  · intro tw th img
    unfold upscale_lanczos
    by_cases h : max ((tw : ℚ) / (img.width : ℚ)) ((th : ℚ) / (img.height : ℚ)) ≤ 1
    · rw [if_pos h]
      exact ⟨Nat.le_refl _, Nat.le_refl _⟩
    · rw [if_neg h]
      exact ⟨hle img.width _ (not_le.mp h), hle img.height _ (not_le.mp h)⟩
  · intro env opts tw th img hm
    unfold upscale_if_needed
    rw [if_neg (by rw [hm]; intro hc; cases hc)]
    by_cases hn : img.width < tw ∨ img.height < th
    · rw [if_neg (not_not_intro hn), if_neg (by rw [hm]; intro hc; cases hc),
        if_pos hn]
    · rw [if_pos hn, if_neg hn]

/-- Witness for `upscale_lanczos_spec` at concrete inputs. -/
theorem upscale_lanczos_spec_witness :
    upscale_lanczos 1 1 ⟨10, 10, "RGB", .source 0⟩ = ⟨10, 10, "RGB", .source 0⟩ ∧
    (10 : Nat) ≤ (upscale_lanczos 20 20 ⟨10, 10, "RGB", .source 0⟩).width := by
  constructor
  · exact upscale_lanczos_spec.1 1 1 ⟨10, 10, "RGB", .source 0⟩
      (by push_cast; norm_num)
  · exact (upscale_lanczos_spec.2.2.1 20 20 ⟨10, 10, "RGB", .source 0⟩).1

/-- The spread-rotation step of `process_pil_image` as a step relation
on possible executions. -/
inductive RotateRel (opts : ImageProcessingOptions) : Img → Img → Prop
  | spin (img : Img) :
      (opts.detect_spreads && is_double_page_spread img && opts.rotate_spreads) = true →
      RotateRel opts img (rotate_spread img)
  | stay (img : Img) :
      (opts.detect_spreads && is_double_page_spread img && opts.rotate_spreads) = false →
      RotateRel opts img img

/-- The upscale step of `process_pil_image` as a step relation. -/
inductive UpscaleRel (env : Env) (opts : ImageProcessingOptions) (tw th : Nat) :
    Img → Img → Prop
  | skipNone (img : Img) :
      opts.upscale_method = UpscaleMethod.none →
      UpscaleRel env opts tw th img img
  | skipLarge (img : Img) :
      opts.upscale_method ≠ UpscaleMethod.none →
      ¬(img.width < tw ∨ img.height < th) →
      UpscaleRel env opts tw th img img
  | aiUp (img : Img) :
      opts.upscale_method = UpscaleMethod.ai_esrgan →
      (img.width < tw ∨ img.height < th) →
      UpscaleRel env opts tw th img (upscale_ai env tw th img)
  | lanczosUp (img : Img) :
      opts.upscale_method = UpscaleMethod.lanczos →
      (img.width < tw ∨ img.height < th) →
      UpscaleRel env opts tw th img (upscale_lanczos tw th img)

/-- The device-fit resize step of `process_pil_image` as a step
relation. -/
inductive ResizeRel (env : Env) (opts : ImageProcessingOptions) (tw th : Nat) :
    Img → Img → Prop
  | fill (img : Img) : opts.fill_screen = true →
      ResizeRel env opts tw th img (resize_to_fill tw th img)
  | fit (img : Img) : opts.fill_screen = false →
      ResizeRel env opts tw th img (resize_to_fit env tw th img)

/-- A full execution of `process_pil_image`: rotate, convert to RGB,
upscale, resize, encode at the given quality. -/
inductive ProcessRel (env : Env) (opts : ImageProcessingOptions)
    (tw th quality : Nat) : Img → EncodedJPEG → Prop
  | run (img i1 i3 i4 : Img) :
      RotateRel opts img i1 →
      UpscaleRel env opts tw th (convert_rgb_step i1) i3 →
      ResizeRel env opts tw th i3 i4 →
      ProcessRel env opts tw th quality img ⟨i4, quality⟩

theorem rotateRel_det (opts : ImageProcessingOptions) (img o1 o2 : Img)
    (h1 : RotateRel opts img o1) (h2 : RotateRel opts img o2) : o1 = o2 := by
  cases h1 with
  | spin hc1 =>
    cases h2 with
    | spin hc2 => rfl
    | stay hc2 => rw [hc1] at hc2; cases hc2
  | stay hc1 =>
    cases h2 with
    | spin hc2 => rw [hc1] at hc2; cases hc2
    | stay hc2 => rfl

theorem upscaleRel_det (env : Env) (opts : ImageProcessingOptions)
    (tw th : Nat) (img o1 o2 : Img)
    (h1 : UpscaleRel env opts tw th img o1)
    (h2 : UpscaleRel env opts tw th img o2) : o1 = o2 := by
  cases h1 with
  | skipNone hm1 =>
    cases h2 with
    | skipNone _ => rfl
    | skipLarge hm2 _ => exact absurd hm1 hm2
    | aiUp hm2 _ => rw [hm1] at hm2; cases hm2
    | lanczosUp hm2 _ => rw [hm1] at hm2; cases hm2
  | skipLarge hm1 hn1 =>
    cases h2 with
    | skipNone hm2 => exact absurd hm2 hm1
    | skipLarge _ _ => rfl
    | aiUp _ hn2 => exact absurd hn2 hn1
    | lanczosUp _ hn2 => exact absurd hn2 hn1
  | aiUp hm1 hn1 =>
    cases h2 with
    | skipNone hm2 => rw [hm2] at hm1; cases hm1
    | skipLarge _ hn2 => exact absurd hn1 hn2
    | aiUp _ _ => rfl
    | lanczosUp hm2 _ => rw [hm2] at hm1; cases hm1
  | lanczosUp hm1 hn1 =>
    cases h2 with
    | skipNone hm2 => rw [hm2] at hm1; cases hm1
    | skipLarge _ hn2 => exact absurd hn1 hn2
    | aiUp hm2 _ => rw [hm1] at hm2; cases hm2
    | lanczosUp _ _ => rfl

theorem resizeRel_det (env : Env) (opts : ImageProcessingOptions)
    (tw th : Nat) (img o1 o2 : Img)
    (h1 : ResizeRel env opts tw th img o1)
    (h2 : ResizeRel env opts tw th img o2) : o1 = o2 := by
  cases h1 with
  | fill hf1 =>
    cases h2 with
    | fill _ => rfl
    | fit hf2 => rw [hf1] at hf2; cases hf2
  | fit hf1 =>
    cases h2 with
    | fill hf2 => rw [hf2] at hf1; cases hf1
    | fit _ => rfl

/-- C8: the image transform is a deterministic (referentially
transparent) function of the run environment, the options, the target
dimensions, the quality and the source image: every execution of
`process_pil_image` yields the value the function computes, and any two
executions on the same inputs yield identical output bytes. -/
theorem process_pil_image_deterministic :
    (∀ (env : Env) (opts : ImageProcessingOptions) (tw th quality : Nat)
      (img : Img),
      ProcessRel env opts tw th quality img
        (process_pil_image env opts tw th img quality)) ∧
    (∀ (env : Env) (opts : ImageProcessingOptions) (tw th quality : Nat)
      (img : Img) (b1 b2 : EncodedJPEG),
      ProcessRel env opts tw th quality img b1 →
      ProcessRel env opts tw th quality img b2 → b1 = b2) := by
  constructor
  · intro env opts tw th quality img
    unfold process_pil_image
    have hrot : RotateRel opts img
        (if opts.detect_spreads && is_double_page_spread img then
          (if opts.rotate_spreads then rotate_spread img else img) else img) := by
      by_cases hd : (opts.detect_spreads && is_double_page_spread img) = true
      · rw [if_pos hd]
        by_cases hr : opts.rotate_spreads = true
        · rw [if_pos hr]
          exact RotateRel.spin img (by simp [hd, hr])
        · rw [if_neg hr]
          exact RotateRel.stay img
            (by rw [hd, Bool.eq_false_iff.mpr hr]; rfl)
      · rw [if_neg hd]
        exact RotateRel.stay img
          (by rw [Bool.eq_false_iff.mpr hd]; rfl)
    have hups : ∀ i : Img, UpscaleRel env opts tw th i
        (upscale_if_needed env opts tw th i) := by
      intro i
      unfold upscale_if_needed
      by_cases hm : opts.upscale_method = UpscaleMethod.none
      · rw [if_pos hm]; exact UpscaleRel.skipNone i hm
      · rw [if_neg hm]
        by_cases hn : ¬(i.width < tw ∨ i.height < th)
        · rw [if_pos hn]; exact UpscaleRel.skipLarge i hm hn
        · rw [if_neg hn]
          by_cases hai : opts.upscale_method = UpscaleMethod.ai_esrgan
          · rw [if_pos hai]; exact UpscaleRel.aiUp i hai (not_not.mp hn)
          · rw [if_neg hai]
            have hl : opts.upscale_method = UpscaleMethod.lanczos := by
              cases hu : opts.upscale_method with
              | none => exact absurd hu hm
              | lanczos => rfl
              | ai_esrgan => exact absurd hu hai
            exact UpscaleRel.lanczosUp i hl (not_not.mp hn)
    have hres : ∀ i : Img, ResizeRel env opts tw th i
        (if opts.fill_screen then resize_to_fill tw th i
          else resize_to_fit env tw th i) := by
      intro i
      by_cases hf : opts.fill_screen = true
      · rw [if_pos hf]; exact ResizeRel.fill i hf
      · rw [if_neg hf]; exact ResizeRel.fit i (Bool.eq_false_iff.mpr hf)
    exact ProcessRel.run img _ _ _ hrot (hups _) (hres _)
  · intro env opts tw th quality img b1 b2 h1 h2
    cases h1 with
    | run i1 i3 i4 hr1 hu1 hs1 =>
      cases h2 with
      | run j1 j3 j4 hr2 hu2 hs2 =>
        have e1 : i1 = j1 := rotateRel_det opts img i1 j1 hr1 hr2
        subst e1
        have e3 : i3 = j3 :=
          upscaleRel_det env opts tw th (convert_rgb_step i1) i3 j3 hu1 hu2
        subst e3
        have e4 : i4 = j4 := resizeRel_det env opts tw th i3 i4 j4 hs1 hs2
        subst e4
        rfl

/-- Witness for `process_pil_image_deterministic`: two concrete
executions on the same page produce the same bytes. -/
theorem process_pil_image_deterministic_witness :
    process_pil_image
      ⟨false, fun _ => 0, fun _ => 0, fun _ => "RGB", fun _ _ _ => 0, fun _ _ _ => 0⟩
      ⟨UpscaleMethod.none, false, false, true⟩ 100 100
      ⟨50, 60, "RGB", .source 7⟩ 85 =
    process_pil_image
      ⟨false, fun _ => 0, fun _ => 0, fun _ => "RGB", fun _ _ _ => 0, fun _ _ _ => 0⟩
      ⟨UpscaleMethod.none, false, false, true⟩ 100 100
      ⟨50, 60, "RGB", .source 7⟩ 85 := by
  exact process_pil_image_deterministic.2
    ⟨false, fun _ => 0, fun _ => 0, fun _ => "RGB", fun _ _ _ => 0, fun _ _ _ => 0⟩
    ⟨UpscaleMethod.none, false, false, true⟩ 100 100 85
    ⟨50, 60, "RGB", .source 7⟩ _ _
    (process_pil_image_deterministic.1 _ _ _ _ _ _)
    (process_pil_image_deterministic.1 _ _ _ _ _ _)


end ImageProcessor

namespace Converter

/-!
Embedding of `ConverterService.convert` from
`backend/app/services/converter.py` (lines 263-311): the output-format
dispatch and the MOBI-failure handling.  `create_epub` and
`convert_to_mobi` touch the file system and external tools; what matters
to the claims is only whether the MOBI transcode succeeds, captured by
the boolean `mobiOk`.  The Python `try` block's mutations of
`output_files` survive into the `except ValueError` handler, so the
block is modelled as `Except` carrying the list state at the point of
the exception.  `Except.error` out of `convert` itself would model an
uncaught exception (a failed batch); every `ValueError` is caught, so
`convert` always returns `Except.ok`.
-/

inductive OutputFormat
  | epub
  | mobi
  | both
deriving DecidableEq

/-- The files `convert` can produce for one batch. -/
inductive FileRef
  | epubFile
  | mobiFile
deriving DecidableEq

/-- The `try` block of `ConverterService.convert`: run the transcode,
append the MOBI, and for MOBI-only requests unlink the EPUB and call
`output_files.remove(epub_path)` — which raises `ValueError` when the
EPUB was never in the list.  Errors carry the list as mutated so far. -/
def convertTry (fmt : OutputFormat) (mobiOk : Bool) (files : List FileRef) :
    Except (List FileRef) (List FileRef) :=
  if mobiOk then
    let files2 := files ++ [FileRef.mobiFile]
    if fmt = OutputFormat.mobi then
      if FileRef.epubFile ∈ files2 then
        Except.ok (files2.erase FileRef.epubFile)
      else Except.error files2
    else Except.ok files2
  else Except.error files

/-- `ConverterService.convert`: always build the EPUB first, record it
for EPUB/BOTH requests, then attempt the MOBI transcode for MOBI/BOTH
requests, falling back to the EPUB when the transcode raises. -/
def convert (fmt : OutputFormat) (mobiOk : Bool) :
    Except String (List FileRef) :=
  let files := if fmt = OutputFormat.epub ∨ fmt = OutputFormat.both then
    [FileRef.epubFile] else []
  if fmt = OutputFormat.mobi ∨ fmt = OutputFormat.both then
    match convertTry fmt mobiOk files with
    | Except.ok fs => Except.ok fs
    | Except.error fs =>
      if FileRef.epubFile ∈ fs then Except.ok fs
      else Except.ok (fs ++ [FileRef.epubFile])
  else Except.ok files

/-- C3 counterexample: when the MOBI transcode fails and MOBI was the
only requested format, `convert` does not fail the batch — the
`except ValueError` handler catches the failure and returns the EPUB as
the deliverable. -/
theorem convert_mobi_only_failure_not_fatal :
    convert OutputFormat.mobi false = Except.ok [FileRef.epubFile] := rfl

/-- C3 (amended): a MOBI transcode failure is never fatal to the batch:
for a BOTH request the already-produced EPUB stays the deliverable, for
a MOBI-only request the EPUB is likewise kept and returned instead of
failing, and `convert` never surfaces an error for any format/outcome. -/
theorem convert_mobi_failure_keeps_epub :
    convert OutputFormat.both false = Except.ok [FileRef.epubFile] ∧
    convert OutputFormat.mobi false = Except.ok [FileRef.epubFile] ∧
    (∀ (fmt : OutputFormat) (mobiOk : Bool),
      (convert fmt mobiOk).isOk = true) := by
  refine ⟨rfl, rfl, ?_⟩
  intro fmt mobiOk
  cases fmt <;> cases mobiOk <;> rfl

end Converter

namespace Progress

/-!
Embedding of the progress reporting in
`backend/app/api/routes/convert.py`.  `indiv_progress_writes n` is the
sequence of values successively assigned to the job record's `progress`
field by a successful run of `_run_individual_conversion` over `n`
input files (per file: `(idx / total) * 50` when extraction starts,
then `50 + ((idx + 1) / total) * 50` after conversion; finally `100.0`
on completion).  `merged_progress_writes n` is the same for
`_run_merged_conversion` (per file `(idx / total) * 30`, then `35`,
`40`, and `100.0`).  `_update_job` calls that do not pass `progress` do
not write the field.  Python floats are modelled as rationals.
-/

/-- Progress values written by `_run_individual_conversion` with `n`
files, in order. -/
def indiv_progress_writes (n : Nat) : List ℚ :=
  ((List.range n).map (fun i : Nat =>
    [((i : ℚ) / (n : ℚ)) * 50, 50 + (((i : ℚ) + 1) / (n : ℚ)) * 50])).flatten
    ++ [100]

/-- Progress values written by `_run_merged_conversion` with `n` files,
in order. -/
def merged_progress_writes (n : Nat) : List ℚ :=
  (List.range n).map (fun i : Nat => ((i : ℚ) / (n : ℚ)) * 30) ++ [35, 40, 100]

/-- C4 counterexample: in individual mode with 2 files the progress
sequence is `[0, 75, 25, 100, 100]`, which decreases from `75` to `25`
when the second file's extraction starts. -/
theorem indiv_progress_not_monotone_two_files :
    indiv_progress_writes 2 = [0, 75, 25, 100, 100] ∧
    ¬ (indiv_progress_writes 2).Chain' (· ≤ ·) := by
  have h : indiv_progress_writes 2 = [0, 75, 25, 100, 100] := by
    unfold indiv_progress_writes
    norm_num [List.range_succ]
  refine ⟨h, ?_⟩
  rw [h]
  intro hc
  have := hc.tail.rel_head
  norm_num at this

/-- C4 (amended): the progress values written within a job are
monotonically non-decreasing in merge mode for every number of files
and in individual mode for a single file, but in individual mode with
two or more files the sequence always decreases when extraction of the
next file begins. -/
theorem progress_monotonicity :
    (∀ n : Nat, (merged_progress_writes n).Chain' (· ≤ ·)) ∧
    (indiv_progress_writes 1).Chain' (· ≤ ·) ∧
    (∀ n : Nat, 2 ≤ n → ¬ (indiv_progress_writes n).Chain' (· ≤ ·)) := by
  have hch3 : ([35, 40, 100] : List ℚ).Chain' (· ≤ ·) := by
    refine List.chain'_cons.mpr ⟨by norm_num, ?_⟩
    refine List.chain'_cons.mpr ⟨by norm_num, ?_⟩
    exact List.chain'_singleton _
  refine ⟨?_, ?_, ?_⟩
  · intro n
    by_cases hn : n = 0
    · subst hn
      rw [merged_progress_writes]
      simpa using hch3
    · have hnq : (0 : ℚ) < (n : ℚ) := by
        have : 0 < n := Nat.pos_of_ne_zero hn
        exact_mod_cast this
      rw [merged_progress_writes, List.chain'_append]
      refine ⟨?_, hch3, ?_⟩
      · refine List.Pairwise.chain' ?_
        rw [List.pairwise_map]
        refine (List.pairwise_lt_range n).imp ?_
        intro a b hab
        have hd : (a : ℚ) / (n : ℚ) ≤ (b : ℚ) / (n : ℚ) := by
          rw [div_le_div_iff_of_pos_right hnq]
          exact_mod_cast hab.le
        exact mul_le_mul_of_nonneg_right hd (by norm_num)
      · intro x hx y hy
        have hy' : (35 : ℚ) = y := by simpa using hy
        obtain ⟨i, hi, rfl⟩ := List.mem_map.mp (List.mem_of_mem_getLast? hx)
        have hin : i < n := List.mem_range.mp hi
        have h1 : ((i : ℚ) / (n : ℚ)) ≤ 1 := by
          rw [div_le_one hnq]
          exact_mod_cast hin.le
        rw [hy'.symm]
        calc (i : ℚ) / (n : ℚ) * 30 ≤ 1 * 30 :=
              mul_le_mul_of_nonneg_right h1 (by norm_num)
          _ ≤ 35 := by norm_num
  · have h1 : indiv_progress_writes 1 = [0, 100, 100] := by
      unfold indiv_progress_writes
      norm_num [List.range_succ]
    rw [h1]
    refine List.chain'_cons.mpr ⟨by norm_num, ?_⟩
    refine List.chain'_cons.mpr ⟨by norm_num, ?_⟩
    exact List.chain'_singleton _
  · intro n hn hc
    obtain ⟨m, rfl⟩ : ∃ m, n = 2 + m := ⟨n - 2, by omega⟩
    rw [indiv_progress_writes, List.range_add] at hc
    simp only [List.map_append, List.flatten_append, List.range_succ,
      List.range_zero, List.nil_append, List.map_cons, List.map_nil,
      List.flatten_cons, List.flatten_nil, List.cons_append,
      List.append_nil, List.append_assoc] at hc
    have h2 := hc.tail.rel_head
    push_cast at h2
    linarith

/-- Witness for `progress_monotonicity` at concrete file counts. -/
theorem progress_monotonicity_witness :
    (merged_progress_writes 3).Chain' (· ≤ ·) ∧
    ¬ (indiv_progress_writes 2).Chain' (· ≤ ·) := by
  exact ⟨progress_monotonicity.1 3,
    progress_monotonicity.2.2 2 (by norm_num)⟩

end Progress

namespace Imports

/-!
Embedding of the module-level import structure relevant to
`backend/app/services/converter.py` line 15:
`from app.services.image_processor import ImageProcessorService,
ParallelImageProcessor`.  `image_processor_module_names` lists every
name bound at module level in
`backend/app/services/image_processor.py` (its own `import`/`from`
bindings, `logger`, and the single class it defines).  A `from`-import
succeeds exactly when every requested name is bound in the source
module. -/

/-- Names bound at module level in `app/services/image_processor.py`. -/
def image_processor_module_names : List String :=
  ["io", "logging", "Path", "Optional", "Image", "DeviceProfile",
   "ImageProcessingOptions", "UpscaleMethod", "DeviceProfileService",
   "logger", "ImageProcessorService"]

/-- Names `app/services/converter.py` requests from
`app.services.image_processor`. -/
def converter_imported_names : List String :=
  ["ImageProcessorService", "ParallelImageProcessor"]

/-- Whether the `from ... import ...` statement resolves. -/
def converter_import_resolves : Bool :=
  converter_imported_names.all (fun n => image_processor_module_names.contains n)

/-- C9: the converter module imports `ParallelImageProcessor` from
`app.services.image_processor`, but that module binds no such name, so
importing `app.services.converter` (and hence constructing
`ConverterService` or reaching `create_epub`, which calls
`ParallelImageProcessor`) fails with `ImportError`. -/
theorem converter_import_fails :
    "ParallelImageProcessor" ∈ converter_imported_names ∧
    "ParallelImageProcessor" ∉ image_processor_module_names ∧
    converter_import_resolves = false := by
  refine ⟨by decide, by decide, by decide⟩

end Imports

namespace Jobs

/-!
Embedding of the in-memory job registry and `_update_job` from
`backend/app/api/routes/convert.py` (lines 29-54).  The registry
`jobs : dict[str, ConversionJob]` is modelled as a partial map from job
ids to records; a `**kwargs` argument of `_update_job` is a list of
field updates applied in order by `setattr`.  The fields are exactly
those of the `ConversionJob` pydantic model; callers of `_update_job`
only ever pass the mutable subset modelled by `JobUpdate`. -/

inductive ConversionStatus
  | pending
  | extracting
  | processing
  | merging
  | converting
  | splitting
  | completed
  | failed
deriving DecidableEq

/-- The `ConversionJob` record (timestamps are opaque tags). -/
structure ConversionJob where
  job_id : String
  session_id : String
  status : ConversionStatus
  progress : ℚ
  current_file : Option String
  current_phase : String
  split_count : Nat
  output_files : List String
  error : Option String
  created_at : Nat
  completed_at : Option Nat
deriving DecidableEq

/-- One keyword argument to `_update_job`: the field and its new
value. -/
inductive JobUpdate
  | setStatus (v : ConversionStatus)
  | setProgress (v : ℚ)
  | setCurrentFile (v : Option String)
  | setCurrentPhase (v : String)
  | setSplitCount (v : Nat)
  | setOutputFiles (v : List String)
  | setError (v : Option String)
  | setCompletedAt (v : Option Nat)

/-- `setattr(job, key, value)` for one keyword argument. -/
def applyUpdate (j : ConversionJob) : JobUpdate → ConversionJob
  | .setStatus v => { j with status := v }
  | .setProgress v => { j with progress := v }
  | .setCurrentFile v => { j with current_file := v }
  | .setCurrentPhase v => { j with current_phase := v }
  | .setSplitCount v => { j with split_count := v }
  | .setOutputFiles v => { j with output_files := v }
  | .setError v => { j with error := v }
  | .setCompletedAt v => { j with completed_at := v }

/-- The `for key, value in kwargs.items(): setattr(...)` loop. -/
def applyUpdates (j : ConversionJob) (us : List JobUpdate) : ConversionJob :=
  us.foldl applyUpdate j

/-- `_update_job(job_id, **kwargs)`: mutate the record only when the id
is present in the registry. -/
def update_job (jobs : String → Option ConversionJob) (job_id : String)
    (us : List JobUpdate) : String → Option ConversionJob :=
  match jobs job_id with
  | none => jobs
  | some j => fun id => if id = job_id then some (applyUpdates j us) else jobs id

/-- The mutable fields of a job record, for frame reasoning. -/
inductive JobField
  | status
  | progress
  | currentFile
  | currentPhase
  | splitCount
  | outputFiles
  | error
  | completedAt
deriving DecidableEq

/-- Which field a keyword argument writes. -/
def touches : JobUpdate → JobField
  | .setStatus _ => .status
  | .setProgress _ => .progress
  | .setCurrentFile _ => .currentFile
  | .setCurrentPhase _ => .currentPhase
  | .setSplitCount _ => .splitCount
  | .setOutputFiles _ => .outputFiles
  | .setError _ => .error
  | .setCompletedAt _ => .completedAt

/-- A field's value, boxed uniformly. -/
inductive FieldVal
  | vStatus (v : ConversionStatus)
  | vRat (v : ℚ)
  | vOptStr (v : Option String)
  | vStr (v : String)
  | vNat (v : Nat)
  | vList (v : List String)
  | vOptNat (v : Option Nat)
deriving DecidableEq

/-- Read one mutable field of a job record. -/
def getField (f : JobField) (j : ConversionJob) : FieldVal :=
  match f with
  | .status => .vStatus j.status
  | .progress => .vRat j.progress
  | .currentFile => .vOptStr j.current_file
  | .currentPhase => .vStr j.current_phase
  | .splitCount => .vNat j.split_count
  | .outputFiles => .vList j.output_files
  | .error => .vOptStr j.error
  | .completedAt => .vOptNat j.completed_at

/-- A single `setattr` leaves every other field unchanged, and never
touches the identity fields. -/
theorem applyUpdate_frame (j : ConversionJob) (u : JobUpdate) (f : JobField)
    (h : touches u ≠ f) : getField f (applyUpdate j u) = getField f j := by
  cases u <;> cases f <;> first
    | rfl
    | exact absurd rfl h

theorem applyUpdate_ids (j : ConversionJob) (u : JobUpdate) :
    (applyUpdate j u).job_id = j.job_id ∧
    (applyUpdate j u).session_id = j.session_id ∧
    (applyUpdate j u).created_at = j.created_at := by
  cases u <;> exact ⟨rfl, rfl, rfl⟩

theorem applyUpdates_frame (us : List JobUpdate) :
    ∀ (j : ConversionJob) (f : JobField),
      (∀ u ∈ us, touches u ≠ f) →
      getField f (applyUpdates j us) = getField f j := by
  induction us with
  | nil => intro j f _; rfl
  | cons u rest ih =>
    intro j f h
    have h1 : touches u ≠ f := h u (List.mem_cons_self u rest)
    have h2 : ∀ v ∈ rest, touches v ≠ f :=
      fun v hv => h v (List.mem_cons_of_mem u hv)
    calc getField f (applyUpdates j (u :: rest))
        = getField f (applyUpdates (applyUpdate j u) rest) := rfl
      _ = getField f (applyUpdate j u) := ih (applyUpdate j u) f h2
      _ = getField f j := applyUpdate_frame j u f h1

/-- C10: calling `_update_job` with an absent `job_id` is a silent
no-op — no error, registry and every record unchanged; with a present
`job_id` only that record is replaced, other ids read unchanged, and
only the fields named in the passed keyword arguments change. -/
theorem update_job_frame (jobs : String → Option ConversionJob)
    (job_id : String) (us : List JobUpdate) :
    (jobs job_id = none → update_job jobs job_id us = jobs) ∧
    (∀ id, id ≠ job_id → update_job jobs job_id us id = jobs id) ∧
    (∀ j, jobs job_id = some j →
      update_job jobs job_id us job_id = some (applyUpdates j us)) ∧
    (∀ (j : ConversionJob) (f : JobField),
      (∀ u ∈ us, touches u ≠ f) →
      getField f (applyUpdates j us) = getField f j) := by
  refine ⟨?_, ?_, ?_, fun j f h => applyUpdates_frame us j f h⟩
  · intro h
    unfold update_job
    rw [h]
  · intro id hid
    unfold update_job
    cases hj : jobs job_id with
    | none => rfl
    | some j => simp [hid]
  · intro j hj
    unfold update_job
    rw [hj]
    simp

/-- Witness for `update_job_frame`: on the empty registry, updating a
missing id changes nothing. -/
theorem update_job_frame_witness :
    update_job (fun _ => none) "job-1" [JobUpdate.setProgress 50] =
      (fun _ => none) := by
  exact (update_job_frame (fun _ => none) "job-1"
    [JobUpdate.setProgress 50]).1 rfl

end Jobs
